import Mathlib

/-
Verification of the structure-increment generator
(scripts/methane_o2_structure_increments.py).

The script is embedded shallowly:

* CPython floats are IEEE-754 binary64 values; every finite binary64
  value is a rational number, so floats are modelled by the exact
  fraction type Frac below, with binary64 addition modelled as exact
  rational addition followed by correct rounding to 53 significant
  bits (round to nearest, ties to even).  The model covers the normal
  finite range (signed zeros are identified, and values beyond the
  overflow threshold are out of the modelled input space; the data in
  this repository stays many orders of magnitude inside it).
* Python string formatting of floats is correctly rounded decimal
  conversion of the underlying binary64 value with ties to even,
  which is reproduced exactly on the rational representation.
* The filesystem is modelled as a record of created directories and
  written files (last write wins), with paths relative to the output
  root.  A set of unwritable paths lets the model raise the errors the
  OS can raise mid-sweep.  Python exceptions are modelled with Except.
* The while loop is modelled with explicit fuel; exhausting every
  fuel bound models non-termination of the source loop.

All definitions are executable and all recursions are structural, so
concrete runs of the model evaluate inside the kernel.
-/

set_option maxRecDepth 100000

deriving instance DecidableEq for Except

namespace EEQBC

/-- Exact fraction n / d.  The denominator is kept positive by
construction everywhere the program builds one; it is not carried as
an invariant because all comparisons used by the embedded program are
cross-multiplication comparisons. -/
structure Frac where
  n : ℤ
  d : ℕ
deriving DecidableEq

/-- Comparison x to y modelling binary64 comparison of exact values. -/
def qle (x y : Frac) : Bool := decide (x.n * (y.d : ℤ) ≤ y.n * (x.d : ℤ))

/-- Strict comparison of exact values. -/
def qlt (x y : Frac) : Bool := decide (x.n * (y.d : ℤ) < y.n * (x.d : ℤ))

/-- Equality of exact values, modelling the == of the source at
float(parts[2]) == 2.0: binary64 equality is equality of the exact
rational values. -/
def qeq (x y : Frac) : Bool := decide (x.n * (y.d : ℤ) = y.n * (x.d : ℤ))

/-- Exact rational addition (no rounding). -/
def qadd (x y : Frac) : Frac := ⟨x.n * y.d + y.n * x.d, x.d * y.d⟩

/-- Exact rational multiplication. -/
def qmul (x y : Frac) : Frac := ⟨x.n * y.n, x.d * y.d⟩

/-- Exact negation. -/
def qneg (x : Frac) : Frac := ⟨-x.n, x.d⟩

/-- Exact subtraction. -/
def qsub (x y : Frac) : Frac := qadd x (qneg y)

/-- Exact reciprocal. -/
def qinv (x : Frac) : Frac := if x.n < 0 then ⟨-(x.d : ℤ), x.n.natAbs⟩ else ⟨(x.d : ℤ), x.n.toNat⟩

/-- Exact division. -/
def qdiv (x y : Frac) : Frac := qmul x (qinv y)

/-- Floor of an exact fraction (the denominator is positive wherever
the program calls this, and Int.ediv floors for positive divisors). -/
def qfloor (x : Frac) : ℤ := Int.ediv x.n x.d

/-- Round an exact fraction to the nearest integer, ties to even.
This is the rounding IEEE-754 uses both for arithmetic and for the
correctly rounded decimal conversions CPython performs when
formatting floats. -/
def rhe (x : Frac) : ℤ :=
  let f := qfloor x
  let r := qsub x ⟨f, 1⟩
  if qlt r ⟨1, 2⟩ then f else if qlt ⟨1, 2⟩ r then f + 1 else if f % 2 = 0 then f else f + 1

/-- Fuelled base-2 logarithm on naturals; with fuel f it is exact for
arguments below 2 to the power f.  Fuel 1200 covers the whole
binary64 range with a wide margin. -/
def log2fuel : ℕ → ℕ → ℕ
  | 0, _ => 0
  | fl + 1, m => if 2 ≤ m then log2fuel fl (m / 2) + 1 else 0

/-- Ceiling base-2 logarithm on naturals. -/
def ceilLog2N (c : ℕ) : ℕ := if c ≤ 1 then 0 else log2fuel 1200 (c - 1) + 1

/-- Floor base-2 logarithm of a positive fraction. -/
def floorLog2 (x : Frac) : ℤ :=
  let m := x.n.toNat
  if x.d ≤ m then (log2fuel 1200 (m / x.d) : ℤ)
  else -(ceilLog2N ((x.d + m - 1) / m) : ℤ)

/-- Two to an integer power, as an exact fraction. -/
def qpow2 (e : ℤ) : Frac := if 0 ≤ e then ⟨(2 ^ e.toNat : ℕ), 1⟩ else ⟨1, 2 ^ (-e).toNat⟩

/-- Round an exact rational value to the nearest IEEE-754 binary64
value (round to nearest, ties to even), returned as its exact
rational value.  The significand and exponent are computed from the
value alone, so the representation of a rounded result is a function
of the value: two Frac inputs with equal value round to structurally
equal outputs. -/
def rndD (x : Frac) : Frac :=
  if qeq x ⟨0, 1⟩ then ⟨0, 1⟩
  else
    let neg := qlt x ⟨0, 1⟩
    let a := if neg then qneg x else x
    let e : ℤ := floorLog2 a - 52
    let m : ℤ := rhe (qmul a (qpow2 (-e)))
    let s : ℤ := if neg then -1 else 1
    if 0 ≤ e then ⟨s * m * (2 ^ e.toNat : ℕ), 1⟩ else ⟨s * m, 2 ^ (-e).toNat⟩

/-- Binary64 addition: exact sum, then correct rounding.  This models
the += of the sweep loop. -/
def fadd (x y : Frac) : Frac := rndD (qadd x y)

/-- Decimal digit to character. -/
def digitChar (d : ℕ) : Char :=
  match d with
  | 0 => '0' | 1 => '1' | 2 => '2' | 3 => '3' | 4 => '4'
  | 5 => '5' | 6 => '6' | 7 => '7' | 8 => '8' | 9 => '9'
  | _ => '*'

/-- Value of a list of decimal digit characters. -/
def digitsToNat (l : List Char) : ℕ := l.foldl (fun a c => 10 * a + (c.toNat - 48)) 0

/-- Fuelled most-significant-first decimal digits of a natural. -/
def natDigitsAux : ℕ → ℕ → List Char
  | 0, _ => []
  | fl + 1, m => if m = 0 then [] else natDigitsAux fl (m / 10) ++ [digitChar (m % 10)]

/-- Decimal string of a natural number (fuel 400 covers every number
with at most 400 digits, far beyond the binary64 decimal range). -/
def natStr (m : ℕ) : String := if m = 0 then "0" else String.mk (natDigitsAux 400 m)

/-- Left-pad with zeros to width w (the zfill of fixed-point
formatting). -/
def padZeros (w : ℕ) (s : String) : String :=
  String.mk (List.replicate (w - s.length) '0') ++ s

/-- Right-justify in a field of width w with spaces, as in the Python
format specification greater-than w. -/
def padL (w : ℕ) (s : String) : String :=
  String.mk (List.replicate (w - s.length) ' ') ++ s

/-- Left-justify in a field of width w with spaces, as in the Python
format specification less-than w. -/
def padR (w : ℕ) (s : String) : String :=
  s ++ String.mk (List.replicate (w - s.length) ' ')

/-- Concatenation of a list of strings (models f.writelines on a list
and also the string join of the empty separator). -/
def strJoin : List String → String
  | [] => ""
  | s :: rest => s ++ strJoin rest

/-- Python sep.join(list). -/
def joinSep (sep : String) : List String → String
  | [] => ""
  | [s] => s
  | s :: rest => s ++ sep ++ joinSep sep rest

/-- Worker for whitespace splitting; the second argument holds the
characters of the current token in reverse. -/
def splitWs : List Char → List Char → List String
  | [], cur => if cur.isEmpty then [] else [String.mk cur.reverse]
  | c :: rest, cur =>
    if c.isWhitespace then
      if cur.isEmpty then splitWs rest [] else String.mk cur.reverse :: splitWs rest []
    else splitWs rest (c :: cur)

/-- Python str.split() with no argument: split on runs of whitespace
and drop empty tokens. -/
def pySplit (s : String) : List String := splitWs s.data []

/-- Split a character list into its leading run of decimal digits and
the rest. -/
def takeDigits (cs : List Char) : List Char × List Char :=
  (cs.takeWhile Char.isDigit, cs.dropWhile Char.isDigit)

/-- Parse the exponent part of a float literal, after the e or E has
been consumed: optional sign then at least one digit, consuming the
whole remainder. -/
def parseExp (cs : List Char) : Option ℤ :=
  let sg : ℤ × List Char :=
    match cs with
    | '-' :: t => (-1, t)
    | '+' :: t => (1, t)
    | t => (1, t)
  let ds := takeDigits sg.2
  if ds.1.isEmpty then none
  else if ds.2.isEmpty then some (sg.1 * (digitsToNat ds.1 : ℤ)) else none

/-- Parse a Python float literal into its exact decimal value:
optional sign, digits with an optional point (at least one digit
overall), and an optional exponent.  This is the grammar of the float
builtin for ordinary decimal notation; the special values inf and
nan and underscore separators are outside the modelled input space. -/
def parseFloatQ (s : String) : Option Frac :=
  let sgn : ℤ × List Char :=
    match s.data with
    | '-' :: t => (-1, t)
    | '+' :: t => (1, t)
    | t => (1, t)
  let ipr := takeDigits sgn.2
  let fpr : List Char × List Char :=
    match ipr.2 with
    | '.' :: t => takeDigits t
    | _ => ([], ipr.2)
  if ipr.1.isEmpty ∧ fpr.1.isEmpty then none
  else
    let eOpt : Option ℤ :=
      match fpr.2 with
      | [] => some 0
      | 'e' :: t => parseExp t
      | 'E' :: t => parseExp t
      | _ => none
    match eOpt with
    | none => none
    | some ev =>
      let mant : ℤ := sgn.1 * ((digitsToNat ipr.1 * 10 ^ fpr.1.length + digitsToNat fpr.1 : ℕ) : ℤ)
      let ex : ℤ := ev - fpr.1.length
      some (if 0 ≤ ex then ⟨mant * ((10 ^ ex.toNat : ℕ) : ℤ), 1⟩ else ⟨mant, 10 ^ (-ex).toNat⟩)

/-- Errors the script can raise: IndexError from parts[i], ValueError
from float(), and OSError from filesystem operations. -/
inductive PyErr where
  | indexError
  | valueError
  | osError
deriving DecidableEq

/-- float(tok): parse the literal and round its exact decimal value
to binary64; a token outside the literal grammar raises ValueError. -/
def pyFloatE (tok : String) : Except PyErr Frac :=
  match parseFloatQ tok with
  | some q => .ok (rndD q)
  | none => .error .valueError

/-- parts[i] with the IndexError Python raises when i is out of
range. -/
def pyIndex (parts : List String) (i : ℕ) : Except PyErr String :=
  match parts[i]? with
  | some t => .ok t
  | none => .error .indexError

/-- Fixed-point formatting of a binary64 value to k decimal places:
the correctly rounded decimal conversion CPython performs for the
format specification .kf (round to nearest, ties to even, sign in
front). -/
def fmtFixed (k : ℕ) (x : Frac) : String :=
  let isneg := qlt x ⟨0, 1⟩
  let a := if isneg then qneg x else x
  let m := (rhe (qmul a ⟨((10 ^ k : ℕ) : ℤ), 1⟩)).toNat
  (if isneg then "-" else "") ++ natStr (m / 10 ^ k) ++ "." ++ padZeros k (natStr (m % 10 ^ k))

/-- The canonical atom line of the source f-string: symbol
left-justified in 2 characters, then the three coordinates each
right-justified in 14 characters with 8 decimal places, separated by
single spaces. -/
def fmtLine (sym : String) (x y z : Frac) : String :=
  padR 2 sym ++ " " ++ padL 14 (fmtFixed 8 x) ++ " " ++ padL 14 (fmtFixed 8 y) ++ " " ++
    padL 14 (fmtFixed 8 z)

/-- Body of the per-atom loop of increment_and_write_xyz, after
parts = atom.split(), in the evaluation order of the source: parts[0]
is read, the mutation guard parts[0] == "O" and float(parts[2]) == 2.0
is evaluated with Python short-circuiting, on success parts[2] is
replaced by the sweep value formatted to 6 decimal places, and the
canonical line is built from parts[0], float(parts[1]),
float(parts[2]), float(parts[3]). -/
def processParts (cur : Frac) (parts : List String) : Except PyErr String :=
  match pyIndex parts 0 with
  | .error e => .error e
  | .ok p0 =>
    let condRes : Except PyErr Bool :=
      if p0 = "O" then
        match pyIndex parts 2 with
        | .error e => .error e
        | .ok t2 =>
          match pyFloatE t2 with
          | .error e => .error e
          | .ok v2 => .ok (qeq v2 ⟨2, 1⟩)
      else .ok false
    match condRes with
    | .error e => .error e
    | .ok cond =>
      let ps := if cond then parts.set 2 (fmtFixed 6 cur) else parts
      match pyIndex ps 1 with
      | .error e => .error e
      | .ok t1 =>
        match pyFloatE t1 with
        | .error e => .error e
        | .ok v1 =>
          match pyIndex ps 2 with
          | .error e => .error e
          | .ok t2 =>
            match pyFloatE t2 with
            | .error e => .error e
            | .ok v2 =>
              match pyIndex ps 3 with
              | .error e => .error e
              | .ok t3 =>
                match pyFloatE t3 with
                | .error e => .error e
                | .ok v3 => .ok (fmtLine p0 v1 v2 v3)

/-- One atom line: split on whitespace, then process the parts. -/
def processAtom (cur : Frac) (atom : String) : Except PyErr String :=
  processParts cur (pySplit atom)

/-- The for-loop over atoms building modified_atoms; the first
exception aborts the whole run. -/
def processAtoms (cur : Frac) : List String → Except PyErr (List String)
  | [] => .ok []
  | atom :: rest =>
    match processAtom cur atom with
    | .error e => .error e
    | .ok line =>
      match processAtoms cur rest with
      | .error e => .error e
      | .ok lines => .ok (line :: lines)

/-- Filesystem state under the output root: the set of directories
created and the written files as a list of path-content pairs, most
recent first (paths are component lists relative to the output
root). -/
structure FS where
  dirs : List (List String)
  files : List (List String × String)
deriving DecidableEq

/-- Look a path up in a write list; the first (most recent) entry
wins. -/
def lookupFiles : List (List String × String) → List String → Option String
  | [], _ => none
  | (q, c) :: rest, p => if q = p then some c else lookupFiles rest p

/-- Content of a file, if present. -/
def fsLookup (fs : FS) (p : List String) : Option String := lookupFiles fs.files p

/-- open(p, "w") followed by writing c: create or truncate, so the
new content replaces any previous one. -/
def fsWrite (fs : FS) (p : List String) (c : String) : FS := ⟨fs.dirs, (p, c) :: fs.files⟩

/-- mkdir(parents=True, exist_ok=True): record the directory; a
pre-existing directory is not an error. -/
def fsMkdir (fs : FS) (p : List String) : FS :=
  ⟨if p ∈ fs.dirs then fs.dirs else p :: fs.dirs, fs.files⟩

/-- Result of a run: normal completion carrying all_directories (by
name, as written to the manifest), a propagated exception, or fuel
exhaustion, which models a loop that is still running after any
bounded number of iterations. -/
inductive Outcome where
  | ok (dirs : List String)
  | err (e : PyErr)
  | spin
deriving DecidableEq

/-- One iteration of the while loop, from building modified_atoms to
the struc.xyz copy.  unw is the set of paths the filesystem refuses
to create or write (each such operation raises OSError, leaving the
writes already performed on disk).  On success the directory name is
returned for all_directories.  The source appends the directory to
all_directories directly after mkdir, before the file writes; since
the manifest is only written after the loop completes without an
exception, recording the name on step success is observationally
equal. -/
def sweepStep (unw : List (List String)) (header : List String) (atoms : List String)
    (cur : Frac) (fs : FS) : FS × Except PyErr String :=
  match processAtoms cur atoms with
  | .error e => (fs, .error e)
  | .ok modified =>
    let nm := fmtFixed 1 cur ++ "A"
    if [nm] ∈ unw then (fs, .error .osError)
    else
      let fs1 := fsMkdir fs [nm]
      let content := strJoin header ++ joinSep "\n" modified ++ "\n"
      if [nm, nm ++ ".xyz"] ∈ unw then (fs1, .error .osError)
      else
        let fs2 := fsWrite fs1 [nm, nm ++ ".xyz"] content
        match fsLookup fs2 [nm, nm ++ ".xyz"] with
        | none => (fs2, .error .osError)
        | some c =>
          if [nm, "struc.xyz"] ∈ unw then (fs2, .error .osError)
          else (fsWrite fs2 [nm, "struc.xyz"] c, .ok nm)

/-- The while current_y <= stop loop, with fuel.  acc is
all_directories (names in creation order). -/
def sweepLoop (unw : List (List String)) (header : List String) (atoms : List String)
    (stop step : Frac) : ℕ → Frac → FS → List String → FS × Outcome
  | 0, _, fs, _ => (fs, .spin)
  | fl + 1, cur, fs, acc =>
    if qle cur stop then
      match sweepStep unw header atoms cur fs with
      | (fs1, .error e) => (fs1, .err e)
      | (fs1, .ok nm) => sweepLoop unw header atoms stop step fl (fadd cur step) fs1 (acc ++ [nm])
    else (fs, .ok acc)

/-- increment_and_write_xyz: split the input lines into the two
header lines and the atom lines, run the sweep loop from start, and
after normal loop exit write the manifest .list.dirs under the output
root, one directory name per line in creation order. -/
def increment_and_write_xyz (fuel : ℕ) (unw : List (List String)) (lines : List String)
    (start stop step : Frac) (fs : FS) : FS × Outcome :=
  let header := lines.take 2
  let atoms := lines.drop 2
  match sweepLoop unw header atoms stop step fuel start fs [] with
  | (fs1, .ok acc) =>
    if [".list.dirs"] ∈ unw then (fs1, .err .osError)
    else (fsWrite fs1 [".list.dirs"] (strJoin (acc.map (· ++ "\n"))), .ok acc)
  | r => r

/-- The successive values of current_y while current_y <= stop,
computed with binary64 accumulation exactly as the loop does; none
means the fuel bound was reached before the loop condition failed. -/
def sweepValues (stop step : Frac) : ℕ → Frac → Option (List Frac)
  | 0, _ => none
  | fl + 1, cur =>
    if qle cur stop then (sweepValues stop step fl (fadd cur step)).map (cur :: ·) else some []

/-- start_increment of the script, as a binary64 value. -/
def start_increment : Frac := rndD ⟨3, 2⟩

/-- stop_increment of the script. -/
def stop_increment : Frac := rndD ⟨8, 1⟩

/-- step_increment of the script. -/
def step_increment : Frac := rndD ⟨1, 10⟩

/-- A well-formed input geometry in the format the script reads: two
header lines then one atom per line, containing both a target oxygen
(symbol O with y exactly 2.0) and atoms the sweep must not touch. -/
def sampleLines : List String :=
  ["4\n", "sample\n",
   "C 0.00000000 0.00000000 0.00000000\n",
   "O 0.00000000 2.00000000 0.00000000\n",
   "O 0.00000000 1.20752000 0.00000000\n",
   "H -0.62911800 0.50000000 0.62911800\n"]

/-- The header lines of the sample input. -/
def sampleHeader : List String := sampleLines.take 2

/-- The atom lines of the sample input. -/
def sampleAtoms : List String := sampleLines.drop 2

/-- The 66 directory names of the literal sweep, built from the exact
decimal values 1.5, 1.6, ..., 8.0 formatted to one decimal place with
the A suffix. -/
def expectedNames : List String :=
  (List.range 66).map (fun i => fmtFixed 1 ⟨(15 + i : ℕ), 10⟩ ++ "A")

/-- An empty output root. -/
def emptyFS : FS := ⟨[], []⟩

/-- Token i is missing or not a float literal. -/
def badTok (parts : List String) (i : ℕ) : Bool :=
  match parts[i]? with
  | some t => (parseFloatQ t).isNone
  | none => true

/-- A whitespace-split atom line is malformed in the sense of the
specification when it has fewer than 4 tokens or one of the three
coordinate tokens is not a float literal. -/
def malformedParts (parts : List String) : Bool :=
  decide (parts.length < 4) || badTok parts 1 || badTok parts 2 || badTok parts 3

/-- Malformedness of a raw atom line. -/
def malformedLine (atom : String) : Bool := malformedParts (pySplit atom)

/- Helper lemmas about the filesystem model. -/

theorem fsLookup_write_self (fs : FS) (p : List String) (c : String) :
    fsLookup (fsWrite fs p c) p = some c := by
  simp [fsLookup, fsWrite, lookupFiles]

theorem fsLookup_write_other (fs : FS) (p q : List String) (c : String) (h : q ≠ p) :
    fsLookup (fsWrite fs q c) p = fsLookup fs p := by
  simp [fsLookup, fsWrite, lookupFiles, h]

theorem fsMkdir_files (fs : FS) (p : List String) : (fsMkdir fs p).files = fs.files := rfl

theorem fsMkdir_lookup (fs : FS) (p q : List String) : fsLookup (fsMkdir fs q) p = fsLookup fs p :=
  rfl

theorem fsMkdir_dirs_mono (fs : FS) (p q : List String) (h : q ∈ fs.dirs) :
    q ∈ (fsMkdir fs p).dirs := by
  simp only [fsMkdir]
  split
  · exact h
  · exact List.mem_cons_of_mem _ h

/- Helper lemmas about one sweep iteration. -/

theorem sweepStep_lookup_single (unw : List (List String)) (header atoms : List String)
    (cur : Frac) (fs : FS) (x : String) :
    fsLookup (sweepStep unw header atoms cur fs).1 [x] = fsLookup fs [x] := by
  cases hpa : processAtoms cur atoms with
  | error e => simp [sweepStep, hpa]
  | ok modified =>
    by_cases h1 : [fmtFixed 1 cur ++ "A"] ∈ unw
    · simp [sweepStep, hpa, h1]
    · by_cases h2 : [fmtFixed 1 cur ++ "A", fmtFixed 1 cur ++ "A" ++ ".xyz"] ∈ unw
      · simp [sweepStep, hpa, h1, h2, fsMkdir_lookup]
      · by_cases h3 : [fmtFixed 1 cur ++ "A", "struc.xyz"] ∈ unw
        · simp [sweepStep, hpa, h1, h2, h3, fsLookup_write_self, fsLookup_write_other,
            fsMkdir_lookup]
        · simp [sweepStep, hpa, h1, h2, h3, fsLookup_write_self, fsLookup_write_other,
            fsMkdir_lookup]

theorem fsLookup_cons_self (d : List (List String)) (l : List (List String × String))
    (p : List String) (c : String) : fsLookup ⟨d, (p, c) :: l⟩ p = some c := by
  simp [fsLookup, lookupFiles]

theorem fsLookup_cons_other (d : List (List String)) (l : List (List String × String))
    (p q : List String) (c : String) (h : q ≠ p) :
    fsLookup ⟨d, (q, c) :: l⟩ p = fsLookup ⟨d, l⟩ p := by
  simp [fsLookup, lookupFiles, h]

theorem sweepStep_dirs_mono (unw : List (List String)) (header atoms : List String)
    (cur : Frac) (fs : FS) (q : List String) (hq : q ∈ fs.dirs) :
    q ∈ (sweepStep unw header atoms cur fs).1.dirs := by
  cases hpa : processAtoms cur atoms with
  | error e => simpa [sweepStep, hpa] using hq
  | ok modified =>
    have hlk := fsLookup_write_self (fsMkdir fs [fmtFixed 1 cur ++ "A"])
      [fmtFixed 1 cur ++ "A", fmtFixed 1 cur ++ "A" ++ ".xyz"]
      (strJoin header ++ joinSep "\n" modified ++ "\n")
    by_cases h1 : [fmtFixed 1 cur ++ "A"] ∈ unw
    · simpa [sweepStep, hpa, h1] using hq
    · by_cases h2 : [fmtFixed 1 cur ++ "A", fmtFixed 1 cur ++ "A" ++ ".xyz"] ∈ unw
      · simp only [sweepStep, hpa, h1, h2]
        simpa using fsMkdir_dirs_mono fs _ q hq
      · by_cases h3 : [fmtFixed 1 cur ++ "A", "struc.xyz"] ∈ unw
        · simp only [sweepStep, hpa, h1, h2, h3, hlk]
          simpa [fsWrite] using fsMkdir_dirs_mono fs _ q hq
        · simp only [sweepStep, hpa, h1, h2, h3, hlk]
          simpa [fsWrite] using fsMkdir_dirs_mono fs _ q hq

theorem sweepStep_ok_shape (unw : List (List String)) (header atoms : List String)
    (cur : Frac) (fs fs1 : FS) (nm : String)
    (h : sweepStep unw header atoms cur fs = (fs1, .ok nm)) :
    nm = fmtFixed 1 cur ++ "A" ∧
      ∃ c, fsLookup fs1 [nm, nm ++ ".xyz"] = some c ∧ fsLookup fs1 [nm, "struc.xyz"] = some c := by
  cases hpa : processAtoms cur atoms with
  | error e => simp [sweepStep, hpa] at h
  | ok modified =>
    have hlk := fsLookup_write_self (fsMkdir fs [fmtFixed 1 cur ++ "A"])
      [fmtFixed 1 cur ++ "A", fmtFixed 1 cur ++ "A" ++ ".xyz"]
      (strJoin header ++ joinSep "\n" modified ++ "\n")
    by_cases h1 : [fmtFixed 1 cur ++ "A"] ∈ unw
    · simp [sweepStep, hpa, h1] at h
    · by_cases h2 : [fmtFixed 1 cur ++ "A", fmtFixed 1 cur ++ "A" ++ ".xyz"] ∈ unw
      · simp [sweepStep, hpa, h1, h2] at h
      · by_cases h3 : [fmtFixed 1 cur ++ "A", "struc.xyz"] ∈ unw
        · simp only [sweepStep, hpa, h1, h2, h3, hlk, if_neg, if_false, not_false_iff] at h
          simp at h
        · simp only [sweepStep, hpa, h1, h2, h3, hlk, if_neg, if_false,
            not_false_iff] at h
          rw [Prod.mk.injEq] at h
          obtain ⟨hfs, hnm⟩ := h
          injection hnm with hnm
          subst hnm
          subst hfs
          refine ⟨rfl, ?_⟩
          by_cases hpq :
              ([fmtFixed 1 cur ++ "A", "struc.xyz"] : List String) =
                [fmtFixed 1 cur ++ "A", fmtFixed 1 cur ++ "A" ++ ".xyz"]
          · refine ⟨_, ?_, fsLookup_write_self ..⟩
            rw [← hpq]
            exact fsLookup_write_self ..
          · refine ⟨_, ?_, fsLookup_write_self ..⟩
            rw [fsLookup_write_other _ _ _ _ hpq]
            exact fsLookup_write_self ..

/-- With no unwritable paths, a step on well-formed atoms always
succeeds, and its effect on the filesystem is the mkdir and the two
file writes of the source. -/
theorem sweepStep_nounw_ok (header atoms : List String) (cur : Frac) (fs : FS)
    (modified : List String) (hpa : processAtoms cur atoms = .ok modified) :
    sweepStep [] header atoms cur fs =
      (fsWrite
        (fsWrite (fsMkdir fs [fmtFixed 1 cur ++ "A"])
          [fmtFixed 1 cur ++ "A", fmtFixed 1 cur ++ "A" ++ ".xyz"]
          (strJoin header ++ joinSep "\n" modified ++ "\n"))
        [fmtFixed 1 cur ++ "A", "struc.xyz"] (strJoin header ++ joinSep "\n" modified ++ "\n"),
        .ok (fmtFixed 1 cur ++ "A")) := by
  have hlk := fsLookup_write_self (fsMkdir fs [fmtFixed 1 cur ++ "A"])
    [fmtFixed 1 cur ++ "A", fmtFixed 1 cur ++ "A" ++ ".xyz"]
    (strJoin header ++ joinSep "\n" modified ++ "\n")
  simp [sweepStep, hpa, hlk]

/- Helper lemmas about the sweep loop. -/

theorem sweepLoop_lookup_single (unw : List (List String)) (header atoms : List String)
    (stop step : Frac) :
    ∀ (n : ℕ) (cur : Frac) (fs : FS) (acc : List String) (x : String),
      fsLookup (sweepLoop unw header atoms stop step n cur fs acc).1 [x] = fsLookup fs [x] := by
  intro n
  induction n with
  | zero => intro cur fs acc x; rfl
  | succ n ih =>
    intro cur fs acc x
    by_cases hc : qle cur stop
    · cases hs : sweepStep unw header atoms cur fs with
      | mk fs1 r =>
        have h1 := sweepStep_lookup_single unw header atoms cur fs x
        rw [hs] at h1
        cases r with
        | error e => simpa [sweepLoop, hc, hs] using h1
        | ok nm =>
          simp only [sweepLoop, hc, hs, if_true]
          rw [ih (fadd cur step) fs1 (acc ++ [nm]) x]
          exact h1
    · simp [sweepLoop, hc]

theorem sweepLoop_dirs_mono (unw : List (List String)) (header atoms : List String)
    (stop step : Frac) :
    ∀ (n : ℕ) (cur : Frac) (fs : FS) (acc : List String) (q : List String), q ∈ fs.dirs →
      q ∈ (sweepLoop unw header atoms stop step n cur fs acc).1.dirs := by
  intro n
  induction n with
  | zero => intro cur fs acc q hq; exact hq
  | succ n ih =>
    intro cur fs acc q hq
    by_cases hc : qle cur stop
    · cases hs : sweepStep unw header atoms cur fs with
      | mk fs1 r =>
        have h1 := sweepStep_dirs_mono unw header atoms cur fs q hq
        rw [hs] at h1
        cases r with
        | error e => simpa [sweepLoop, hc, hs] using h1
        | ok nm =>
          simp only [sweepLoop, hc, hs, if_true]
          exact ih (fadd cur step) fs1 (acc ++ [nm]) q h1
    · simpa [sweepLoop, hc] using hq

theorem sweepLoop_ok_names (unw : List (List String)) (header atoms : List String)
    (stop step : Frac) :
    ∀ (n : ℕ) (cur : Frac) (fs : FS) (acc : List String) (fs1 : FS) (l : List String),
      sweepLoop unw header atoms stop step n cur fs acc = (fs1, .ok l) →
      ∃ vs, sweepValues stop step n cur = some vs ∧
        l = acc ++ vs.map (fun v => fmtFixed 1 v ++ "A") := by
  intro n
  induction n with
  | zero => intro cur fs acc fs1 l h; simp [sweepLoop] at h
  | succ n ih =>
    intro cur fs acc fs1 l h
    by_cases hc : qle cur stop
    · cases hs : sweepStep unw header atoms cur fs with
      | mk fs2 r =>
        cases r with
        | error e => simp [sweepLoop, hc, hs] at h
        | ok nm =>
          simp only [sweepLoop, hc, hs, if_true] at h
          obtain ⟨vs, hsv, hl⟩ := ih (fadd cur step) fs2 (acc ++ [nm]) fs1 l h
          have hnm := (sweepStep_ok_shape unw header atoms cur fs fs2 nm hs).1
          refine ⟨cur :: vs, ?_, ?_⟩
          · simp [sweepValues, hc, hsv]
          · simp [hl, hnm, List.append_assoc]
    · simp [sweepLoop, hc] at h
      refine ⟨[], by simp [sweepValues, hc], ?_⟩
      simp [h.2]

theorem sweepLoop_files_indep (header atoms : List String) (stop step : Frac) :
    ∀ (n : ℕ) (cur : Frac) (acc : List String), ∃ seg o, ∀ fs : FS,
      (sweepLoop [] header atoms stop step n cur fs acc).1.files = seg ++ fs.files ∧
      (sweepLoop [] header atoms stop step n cur fs acc).2 = o := by
  intro n
  induction n with
  | zero => intro cur acc; exact ⟨[], .spin, fun fs => ⟨rfl, rfl⟩⟩
  | succ n ih =>
    intro cur acc
    by_cases hc : qle cur stop
    · cases hpa : processAtoms cur atoms with
      | error e =>
        refine ⟨[], .err e, fun fs => ?_⟩
        constructor
        · simp [sweepLoop, hc, sweepStep, hpa]
        · simp [sweepLoop, hc, sweepStep, hpa]
      | ok modified =>
        obtain ⟨seg, o, hseg⟩ := ih (fadd cur step) (acc ++ [fmtFixed 1 cur ++ "A"])
        refine ⟨seg ++
          [([fmtFixed 1 cur ++ "A", "struc.xyz"],
             strJoin header ++ joinSep "\n" modified ++ "\n"),
           ([fmtFixed 1 cur ++ "A", fmtFixed 1 cur ++ "A" ++ ".xyz"],
             strJoin header ++ joinSep "\n" modified ++ "\n")], o, fun fs => ?_⟩
        have hstep := sweepStep_nounw_ok header atoms cur fs modified hpa
        have hrec := hseg (fsWrite
          (fsWrite (fsMkdir fs [fmtFixed 1 cur ++ "A"])
            [fmtFixed 1 cur ++ "A", fmtFixed 1 cur ++ "A" ++ ".xyz"]
            (strJoin header ++ joinSep "\n" modified ++ "\n"))
          [fmtFixed 1 cur ++ "A", "struc.xyz"] (strJoin header ++ joinSep "\n" modified ++ "\n"))
        constructor
        · simp only [sweepLoop, hc, hstep, if_true]
          rw [hrec.1]
          simp [fsWrite, fsMkdir_files, List.append_assoc]
        · simp only [sweepLoop, hc, hstep, if_true]
          exact hrec.2
    · exact ⟨[], .ok acc, fun fs => by simp [sweepLoop, hc]⟩

theorem lookupFiles_append_of_mem (wr : List (List String × String)) (p : List String)
    (h : ∃ c, (p, c) ∈ wr) (l : List (List String × String)) :
    lookupFiles (wr ++ l) p = lookupFiles wr p := by
  induction wr with
  | nil => simp at h
  | cons qc rest ih =>
    obtain ⟨c, hc⟩ := h
    by_cases hq : qc.1 = p
    · simp [lookupFiles, hq]
    · rcases List.mem_cons.mp hc with h1 | h1
      · exact absurd (congrArg Prod.fst h1).symm hq
      · simpa [lookupFiles, hq] using ih ⟨c, h1⟩

/- Helper lemmas about the whole run. -/

theorem run_err_state (fuel : ℕ) (unw : List (List String)) (lines : List String)
    (start stop step : Frac) (fs fs1 : FS) (e : PyErr)
    (h : increment_and_write_xyz fuel unw lines start stop step fs = (fs1, .err e)) :
    fsLookup fs1 [".list.dirs"] = fsLookup fs [".list.dirs"] ∧
      ∀ q ∈ fs.dirs, q ∈ fs1.dirs := by
  have hlk := sweepLoop_lookup_single unw (lines.take 2) (lines.drop 2) stop step fuel start fs
    [] ".list.dirs"
  have hdm := sweepLoop_dirs_mono unw (lines.take 2) (lines.drop 2) stop step fuel start fs []
  cases hl : sweepLoop unw (lines.take 2) (lines.drop 2) stop step fuel start fs [] with
  | mk fs2 o =>
    rw [hl] at hlk hdm
    cases o with
    | ok acc =>
      by_cases hw : ([".list.dirs"] : List String) ∈ unw
      · simp only [increment_and_write_xyz, hl, hw, if_true] at h
        rw [Prod.mk.injEq] at h
        exact h.1 ▸ ⟨hlk, hdm⟩
      · simp [increment_and_write_xyz, hl, hw] at h
    | err e2 =>
      simp only [increment_and_write_xyz, hl] at h
      rw [Prod.mk.injEq] at h
      exact h.1 ▸ ⟨hlk, hdm⟩
    | spin => simp [increment_and_write_xyz, hl] at h

theorem run_ok_state (fuel : ℕ) (unw : List (List String)) (lines : List String)
    (start stop step : Frac) (fs fs1 : FS) (acc : List String)
    (h : increment_and_write_xyz fuel unw lines start stop step fs = (fs1, .ok acc)) :
    fsLookup fs1 [".list.dirs"] = some (strJoin (acc.map (· ++ "\n"))) ∧
      ∃ vs, sweepValues stop step fuel start = some vs ∧
        acc = vs.map (fun v => fmtFixed 1 v ++ "A") := by
  cases hl : sweepLoop unw (lines.take 2) (lines.drop 2) stop step fuel start fs [] with
  | mk fs2 o =>
    cases o with
    | ok acc2 =>
      obtain ⟨vs, hsv, hnames⟩ :=
        sweepLoop_ok_names unw (lines.take 2) (lines.drop 2) stop step fuel start fs [] fs2
          acc2 hl
      by_cases hw : ([".list.dirs"] : List String) ∈ unw
      · simp [increment_and_write_xyz, hl, hw] at h
      · simp only [increment_and_write_xyz, hl, hw, if_false, if_neg, not_false_iff] at h
        rw [Prod.mk.injEq] at h
        obtain ⟨hfs, hacc⟩ := h
        injection hacc with he
        refine ⟨?_, vs, hsv, ?_⟩
        · rw [← hfs, ← he]
          exact fsLookup_write_self ..
        · rw [← he]
          simpa using hnames
    | err e2 => simp [increment_and_write_xyz, hl] at h
    | spin => simp [increment_and_write_xyz, hl] at h

theorem run_files_indep (fuel : ℕ) (lines : List String) (start stop step : Frac) :
    ∃ wr o, ∀ fs : FS,
      (increment_and_write_xyz fuel [] lines start stop step fs).1.files = wr ++ fs.files ∧
      (increment_and_write_xyz fuel [] lines start stop step fs).2 = o := by
  obtain ⟨seg, o, hseg⟩ :=
    sweepLoop_files_indep (lines.take 2) (lines.drop 2) stop step fuel start []
  cases o with
  | ok acc =>
    refine ⟨([".list.dirs"], strJoin (acc.map (· ++ "\n"))) :: seg, .ok acc, fun fs => ?_⟩
    have h1 := (hseg fs).1
    have h2 := (hseg fs).2
    cases hl : sweepLoop [] (lines.take 2) (lines.drop 2) stop step fuel start fs [] with
    | mk fs2 o2 =>
      rw [hl] at h1 h2
      subst h2
      have h1a : fs2.files = seg ++ fs.files := h1
      constructor
      · simp [increment_and_write_xyz, hl, fsWrite, h1a]
      · simp [increment_and_write_xyz, hl]
  | err e =>
    refine ⟨seg, .err e, fun fs => ?_⟩
    have h1 := (hseg fs).1
    have h2 := (hseg fs).2
    cases hl : sweepLoop [] (lines.take 2) (lines.drop 2) stop step fuel start fs [] with
    | mk fs2 o2 =>
      rw [hl] at h1 h2
      subst h2
      exact ⟨by simpa [increment_and_write_xyz, hl] using h1, by simp [increment_and_write_xyz, hl]⟩
  | spin =>
    refine ⟨seg, .spin, fun fs => ?_⟩
    have h1 := (hseg fs).1
    have h2 := (hseg fs).2
    cases hl : sweepLoop [] (lines.take 2) (lines.drop 2) stop step fuel start fs [] with
    | mk fs2 o2 =>
      rw [hl] at h1 h2
      subst h2
      exact ⟨by simpa [increment_and_write_xyz, hl] using h1, by simp [increment_and_write_xyz, hl]⟩

/- Helper lemmas for malformed input lines. -/

theorem processParts_ok_wf (cur : Frac) (parts : List String) (r : String)
    (h : processParts cur parts = .ok r) : malformedParts parts = false := by
  rcases parts with _ | ⟨p0, _ | ⟨p1, _ | ⟨p2, _ | ⟨p3, rest⟩⟩⟩⟩
  · simp [processParts, pyIndex] at h
  · by_cases hO : p0 = "O"
    · simp [processParts, pyIndex, hO] at h
    · simp [processParts, pyIndex, hO] at h
  · by_cases hO : p0 = "O"
    · simp [processParts, pyIndex, hO] at h
    · cases hp1 : parseFloatQ p1 with
      | none => simp [processParts, pyIndex, pyFloatE, hO, hp1] at h
      | some w1 => simp [processParts, pyIndex, pyFloatE, hO, hp1] at h
  · by_cases hO : p0 = "O"
    · cases hp2 : parseFloatQ p2 with
      | none => simp [processParts, pyIndex, pyFloatE, hO, hp2] at h
      | some w2 =>
        by_cases hq : qeq (rndD w2) ⟨2, 1⟩ = true
        · cases hp1 : parseFloatQ p1 with
          | none => simp [processParts, pyIndex, pyFloatE, hO, hp1, hp2, hq] at h
          | some w1 =>
            cases hpf : parseFloatQ (fmtFixed 6 cur) with
            | none => simp [processParts, pyIndex, pyFloatE, hO, hp1, hp2, hpf, hq] at h
            | some wf => simp [processParts, pyIndex, pyFloatE, hO, hp1, hp2, hpf, hq] at h
        · replace hq : qeq (rndD w2) ⟨2, 1⟩ = false := by simpa using hq
          cases hp1 : parseFloatQ p1 with
          | none => simp [processParts, pyIndex, pyFloatE, hO, hp1, hp2, hq] at h
          | some w1 => simp [processParts, pyIndex, pyFloatE, hO, hp1, hp2, hq] at h
    · cases hp1 : parseFloatQ p1 with
      | none => simp [processParts, pyIndex, pyFloatE, hO, hp1] at h
      | some w1 =>
        cases hp2 : parseFloatQ p2 with
        | none => simp [processParts, pyIndex, pyFloatE, hO, hp1, hp2] at h
        | some w2 => simp [processParts, pyIndex, pyFloatE, hO, hp1, hp2] at h
  · have hlen : decide ((p0 :: p1 :: p2 :: p3 :: rest).length < 4) = false :=
      decide_eq_false (by simp only [List.length_cons]; omega)
    by_cases hO : p0 = "O"
    · cases hp2 : parseFloatQ p2 with
      | none => simp [processParts, pyIndex, pyFloatE, hO, hp2] at h
      | some w2 =>
        by_cases hq : qeq (rndD w2) ⟨2, 1⟩ = true
        · cases hp1 : parseFloatQ p1 with
          | none => simp [processParts, pyIndex, pyFloatE, hO, hp1, hp2, hq] at h
          | some w1 =>
            cases hpf : parseFloatQ (fmtFixed 6 cur) with
            | none => simp [processParts, pyIndex, pyFloatE, hO, hp1, hp2, hpf, hq] at h
            | some wf =>
              cases hp3 : parseFloatQ p3 with
              | none => simp [processParts, pyIndex, pyFloatE, hO, hp1, hp2, hp3, hpf, hq] at h
              | some w3 => simp [malformedParts, badTok, hlen, hp1, hp2, hp3]
        · replace hq : qeq (rndD w2) ⟨2, 1⟩ = false := by simpa using hq
          cases hp1 : parseFloatQ p1 with
          | none => simp [processParts, pyIndex, pyFloatE, hO, hp1, hp2, hq] at h
          | some w1 =>
            cases hp3 : parseFloatQ p3 with
            | none => simp [processParts, pyIndex, pyFloatE, hO, hp1, hp2, hp3, hq] at h
            | some w3 => simp [malformedParts, badTok, hlen, hp1, hp2, hp3]
    · cases hp1 : parseFloatQ p1 with
      | none => simp [processParts, pyIndex, pyFloatE, hO, hp1] at h
      | some w1 =>
        cases hp2 : parseFloatQ p2 with
        | none => simp [processParts, pyIndex, pyFloatE, hO, hp1, hp2] at h
        | some w2 =>
          cases hp3 : parseFloatQ p3 with
          | none => simp [processParts, pyIndex, pyFloatE, hO, hp1, hp2, hp3] at h
          | some w3 => simp [malformedParts, badTok, hlen, hp1, hp2, hp3]

theorem processParts_err (cur : Frac) (parts : List String)
    (h : malformedParts parts = true) : ∃ e, processParts cur parts = .error e := by
  cases hx : processParts cur parts with
  | error e => exact ⟨e, rfl⟩
  | ok r =>
    rw [processParts_ok_wf cur parts r hx] at h
    cases h

theorem processAtoms_err (cur : Frac) (atoms : List String)
    (h : ∃ a ∈ atoms, malformedLine a = true) : ∃ e, processAtoms cur atoms = .error e := by
  induction atoms with
  | nil => simp at h
  | cons a rest ih =>
    cases hpa : processAtom cur a with
    | error e => exact ⟨e, by simp [processAtoms, hpa]⟩
    | ok line =>
      rcases h with ⟨b, hb, hbad⟩
      rcases List.mem_cons.mp hb with rfl | hbrest
      · obtain ⟨e, he⟩ := processParts_err cur (pySplit b) hbad
        rw [processAtom, he] at hpa
        cases hpa
      · obtain ⟨e, he⟩ := ih ⟨b, hbrest, hbad⟩
        exact ⟨e, by simp [processAtoms, hpa, he]⟩

theorem run_malformed (n : ℕ) (unw : List (List String)) (lines : List String)
    (start stop step : Frac) (fs : FS) (hqle : qle start stop = true)
    (hbad : ∃ a ∈ lines.drop 2, malformedLine a = true) :
    ∃ e, increment_and_write_xyz (n + 1) unw lines start stop step fs = (fs, .err e) := by
  obtain ⟨e, he⟩ := processAtoms_err start (lines.drop 2) hbad
  refine ⟨e, ?_⟩
  have hstep : sweepStep unw (lines.take 2) (lines.drop 2) start fs = (fs, .error e) := by
    simp [sweepStep, he]
  have hloop : sweepLoop unw (lines.take 2) (lines.drop 2) stop step (n + 1) start fs [] =
      (fs, .err e) := by
    simp [sweepLoop, hqle, hstep]
  simp [increment_and_write_xyz, hloop]

/- Helper lemmas for the mutation rule of the per-atom loop. -/

theorem processParts_mut (cur : Frac) (x y z : String) (rest : List String)
    (vx vy vz vm : Frac) (hx : pyFloatE x = .ok vx) (hy : pyFloatE y = .ok vy)
    (hq : qeq vy ⟨2, 1⟩ = true) (hz : pyFloatE z = .ok vz)
    (hm : pyFloatE (fmtFixed 6 cur) = .ok vm) :
    processParts cur ("O" :: x :: y :: z :: rest) = .ok (fmtLine "O" vx vm vz) := by
  simp [processParts, pyIndex, hx, hy, hz, hm, hq]

theorem processParts_skip (cur : Frac) (sym x y z : String) (rest : List String)
    (vx vy vz : Frac) (hx : pyFloatE x = .ok vx) (hy : pyFloatE y = .ok vy)
    (hz : pyFloatE z = .ok vz) (hcond : sym ≠ "O" ∨ qeq vy ⟨2, 1⟩ = false) :
    processParts cur (sym :: x :: y :: z :: rest) = .ok (fmtLine sym vx vy vz) := by
  rcases hcond with hs | hq
  · simp [processParts, pyIndex, hs, hx, hy, hz]
  · by_cases hs : sym = "O"
    · subst hs
      simp [processParts, pyIndex, hx, hy, hz, hq]
    · simp [processParts, pyIndex, hs, hx, hy, hz]

/- Helper lemma for non-termination with a zero step. -/

theorem sweepLoop_spin_zero_step :
    ∀ (n : ℕ) (fs : FS) (acc : List String),
      (sweepLoop [] sampleHeader sampleAtoms stop_increment (rndD ⟨0, 1⟩) n start_increment fs
        acc).2 = .spin := by
  intro n
  induction n with
  | zero => intro fs acc; rfl
  | succ n ih =>
    intro fs acc
    have hqle : qle start_increment stop_increment = true := by decide
    have hfadd : fadd start_increment (rndD ⟨0, 1⟩) = start_increment := by decide
    obtain ⟨ms, hms⟩ : ∃ ms, processAtoms start_increment sampleAtoms = .ok ms := ⟨_, rfl⟩
    have hstep := sweepStep_nounw_ok sampleHeader sampleAtoms start_increment fs ms hms
    simp only [sweepLoop, hqle, if_true, hstep]
    rw [hfadd]
    exact ih _ _

/-- Any successful run of the generator at the literal script
parameters records exactly the 66 names of the literal sweep. -/
theorem runLit_names (lines : List String) (fs fs1 : FS) (acc : List String)
    (h : increment_and_write_xyz 100 [] lines start_increment stop_increment step_increment fs =
      (fs1, .ok acc)) : acc = expectedNames := by
  obtain ⟨_, vs, hsv, hacc⟩ := run_ok_state 100 [] lines start_increment stop_increment
    step_increment fs fs1 acc h
  have hv : (sweepValues stop_increment step_increment 100 start_increment).map
      (List.map (fun v => fmtFixed 1 v ++ "A")) = some expectedNames := by decide
  rw [hsv] at hv
  rw [hacc]
  exact Option.some.inj hv

/-- C1 counterexample: at the concrete input atom line and sweep
value of the claim, the generator emits the canonical 14-wide
right-justified line, which is not the 4-space-separated line the
claim states. -/
theorem c1_claimed_line_counterexample :
    processAtom (rndD ⟨3477, 1000⟩) "O 0.00000000 2.00000000 0.00000000" =
      .ok "O      0.00000000     3.47700000     0.00000000" ∧
    "O      0.00000000     3.47700000     0.00000000" ≠
      "O    0.00000000    3.47700000    0.00000000" := by
  constructor
  · decide
  · decide

/-- C1 (amended): for every sweep value and every atom line whose
first token is O and whose third token parses to a float equal to
2.0, the y coordinate is replaced by the sweep value formatted to 6
decimal places and the line is re-emitted in the canonical layout;
at the concrete input of the claim with sweep value 3.477 the output
line is the canonical one (symbol left-justified in 2 characters,
coordinates right-justified in 14 characters with 8 decimals, single
space separators). -/
theorem c1_y_replacement :
    (∀ (cur : Frac) (x y z : String) (rest : List String) (vx vy vz vm : Frac),
        pyFloatE x = .ok vx → pyFloatE y = .ok vy → qeq vy ⟨2, 1⟩ = true →
        pyFloatE z = .ok vz → pyFloatE (fmtFixed 6 cur) = .ok vm →
        processParts cur ("O" :: x :: y :: z :: rest) = .ok (fmtLine "O" vx vm vz)) ∧
    processAtom (rndD ⟨3477, 1000⟩) "O 0.00000000 2.00000000 0.00000000" =
      .ok (fmtLine "O" ⟨0, 1⟩ (rndD ⟨3477, 1000⟩) ⟨0, 1⟩) ∧
    fmtLine "O" ⟨0, 1⟩ (rndD ⟨3477, 1000⟩) ⟨0, 1⟩ =
      "O      0.00000000     3.47700000     0.00000000" := by
  refine ⟨?_, by decide, by decide⟩
  intro cur x y z rest vx vy vz vm hx hy hq hz hm
  exact processParts_mut cur x y z rest vx vy vz vm hx hy hq hz hm

/-- C1 witness: the general mutation statement applied at concrete
tokens and the concrete sweep value 3.477. -/
theorem c1_y_replacement_witness :
    processParts (rndD ⟨3477, 1000⟩) ("O" :: "1.0" :: "2.0" :: "-0.5" :: []) =
      .ok (fmtLine "O" (rndD ⟨1, 1⟩) (rndD ⟨3477, 1000⟩) (rndD ⟨-1, 2⟩)) :=
  c1_y_replacement.1 (rndD ⟨3477, 1000⟩) "1.0" "2.0" "-0.5" [] (rndD ⟨1, 1⟩) (rndD ⟨2, 1⟩)
    (rndD ⟨-1, 2⟩) (rndD ⟨3477, 1000⟩) (by decide) (by decide) (by decide) (by decide)
    (by decide)

/-- C2: an atom line whose symbol is not O, or whose parsed y
coordinate is not exactly 2.0, is emitted as the canonical layout of
its own parsed coordinate values, identically in every sweep step:
the output does not depend on the sweep value at all. -/
theorem c2_non_target_atoms :
    ∀ (cur cur2 : Frac) (sym x y z : String) (rest : List String) (vx vy vz : Frac),
      pyFloatE x = .ok vx → pyFloatE y = .ok vy → pyFloatE z = .ok vz →
      (sym ≠ "O" ∨ qeq vy ⟨2, 1⟩ = false) →
      processParts cur (sym :: x :: y :: z :: rest) = .ok (fmtLine sym vx vy vz) ∧
      processParts cur (sym :: x :: y :: z :: rest) =
        processParts cur2 (sym :: x :: y :: z :: rest) := by
  intro cur cur2 sym x y z rest vx vy vz hx hy hz hcond
  have h1 := processParts_skip cur sym x y z rest vx vy vz hx hy hz hcond
  have h2 := processParts_skip cur2 sym x y z rest vx vy vz hx hy hz hcond
  exact ⟨h1, h1.trans h2.symm⟩

/-- C2 witness: the hydrogen line of the specification, at the first
and last sweep values of the script. -/
theorem c2_non_target_atoms_witness :
    processParts start_increment ("H" :: "1.00000000" :: "0.50000000" :: "0.00000000" :: []) =
      .ok (fmtLine "H" (rndD ⟨1, 1⟩) (rndD ⟨1, 2⟩) ⟨0, 1⟩) ∧
    processParts start_increment ("H" :: "1.00000000" :: "0.50000000" :: "0.00000000" :: []) =
      processParts stop_increment ("H" :: "1.00000000" :: "0.50000000" :: "0.00000000" :: []) :=
  c2_non_target_atoms start_increment stop_increment "H" "1.00000000" "0.50000000" "0.00000000"
    [] (rndD ⟨1, 1⟩) (rndD ⟨1, 2⟩) ⟨0, 1⟩ (by decide) (by decide) (by decide)
    (Or.inl (by decide))

/-- C3: with the literal script parameters (start 1.5, stop 8.0, step
0.1, accumulated in binary64), the sweep loop runs exactly 66
iterations, every successful run records exactly the names 1.5A
through 8.0A in order, and 66 equals the floor formula of the claim
evaluated on the exact literal values. -/
theorem c3_sweep_count :
    (∀ (lines : List String) (fs fs1 : FS) (acc : List String),
        increment_and_write_xyz 100 [] lines start_increment stop_increment step_increment fs =
          (fs1, .ok acc) → acc = expectedNames) ∧
    (sweepValues stop_increment step_increment 100 start_increment).map
      (List.map (fun v => fmtFixed 1 v ++ "A")) = some expectedNames ∧
    (sweepValues stop_increment step_increment 100 start_increment).map List.length = some 66 ∧
    expectedNames.length = 66 ∧
    expectedNames.head? = some "1.5A" ∧ expectedNames.getLast? = some "8.0A" ∧
    qfloor (qdiv (qsub ⟨8, 1⟩ ⟨3, 2⟩) ⟨1, 10⟩) + 1 = 66 := by
  exact ⟨runLit_names, by decide, by decide, by decide, by decide, by decide, by decide⟩

/-- C3 witness: a concrete successful run at the literal parameters,
with the recorded names obtained from the claim theorem. -/
theorem c3_sweep_count_witness :
    (increment_and_write_xyz 100 [] sampleLines start_increment stop_increment step_increment
      emptyFS).2 = .ok expectedNames ∧ expectedNames = expectedNames := by
  have h2 : (increment_and_write_xyz 100 [] sampleLines start_increment stop_increment
      step_increment emptyFS).2 = .ok expectedNames := by decide
  refine ⟨h2, ?_⟩
  exact c3_sweep_count.1 sampleLines emptyFS _ expectedNames (Prod.ext rfl h2)

/-- C4: whenever a sweep step completes, the directory of that step
holds the step geometry file and struc.xyz with the same content. -/
theorem c4_duplicate_copy :
    ∀ (unw : List (List String)) (header atoms : List String) (cur : Frac) (fs fs1 : FS)
      (nm : String), sweepStep unw header atoms cur fs = (fs1, .ok nm) →
      ∃ c, fsLookup fs1 [nm, nm ++ ".xyz"] = some c ∧
        fsLookup fs1 [nm, "struc.xyz"] = some c :=
  fun unw header atoms cur fs fs1 nm h => (sweepStep_ok_shape unw header atoms cur fs fs1 nm h).2

/-- C4 witness: the first step of the literal sweep on the sample
geometry. -/
theorem c4_duplicate_copy_witness :
    ∃ c, fsLookup (sweepStep [] sampleHeader sampleAtoms start_increment emptyFS).1
        ["1.5A", "1.5A" ++ ".xyz"] = some c ∧
      fsLookup (sweepStep [] sampleHeader sampleAtoms start_increment emptyFS).1
        ["1.5A", "struc.xyz"] = some c := by
  have h2 : (sweepStep [] sampleHeader sampleAtoms start_increment emptyFS).2 = .ok "1.5A" := by
    decide
  exact c4_duplicate_copy [] sampleHeader sampleAtoms start_increment emptyFS _ "1.5A"
    (Prod.ext rfl h2)

/-- C5: in every successful run at the literal parameters, the
manifest .list.dirs consists of exactly the recorded directory names
in creation order, one per line; the names are the 66 sweep names,
pairwise distinct, non-empty, and free of path separators. -/
theorem c5_manifest :
    ∀ (lines : List String) (fs fs1 : FS) (acc : List String),
      increment_and_write_xyz 100 [] lines start_increment stop_increment step_increment fs =
        (fs1, .ok acc) →
      fsLookup fs1 [".list.dirs"] = some (strJoin (acc.map (· ++ "\n"))) ∧
      acc = expectedNames ∧ acc.Nodup ∧ ∀ nm ∈ acc, nm ≠ "" ∧ '/' ∉ nm.data := by
  intro lines fs fs1 acc h
  obtain ⟨hlk, _, _, _⟩ := run_ok_state 100 [] lines start_increment stop_increment
    step_increment fs fs1 acc h
  have hname := runLit_names lines fs fs1 acc h
  subst hname
  exact ⟨hlk, rfl, by decide, by decide⟩

/-- C5 witness: the manifest of a concrete successful run. -/
theorem c5_manifest_witness :
    fsLookup (increment_and_write_xyz 100 [] sampleLines start_increment stop_increment
      step_increment emptyFS).1 [".list.dirs"] =
      some (strJoin (expectedNames.map (· ++ "\n"))) ∧ expectedNames.Nodup := by
  have h2 : (increment_and_write_xyz 100 [] sampleLines start_increment stop_increment
      step_increment emptyFS).2 = .ok expectedNames := by decide
  obtain ⟨hlk, _, hnd, _⟩ := c5_manifest sampleLines emptyFS _ expectedNames (Prod.ext rfl h2)
  exact ⟨hlk, hnd⟩

/-- C6 counterexample: called with step -1 and start 2 above stop 1,
the generator does not reject the call: it completes normally with no
directories and writes an empty manifest. -/
theorem c6_no_validation_counterexample :
    increment_and_write_xyz 5 [] sampleLines (rndD ⟨2, 1⟩) (rndD ⟨1, 1⟩) (rndD ⟨-1, 1⟩)
      emptyFS = (⟨[], [([".list.dirs"], "")]⟩, .ok []) ∧
    ∀ e, (increment_and_write_xyz 5 [] sampleLines (rndD ⟨2, 1⟩) (rndD ⟨1, 1⟩) (rndD ⟨-1, 1⟩)
      emptyFS).2 ≠ .err e := by
  constructor
  · decide
  · intro e h
    have h0 : (increment_and_write_xyz 5 [] sampleLines (rndD ⟨2, 1⟩) (rndD ⟨1, 1⟩)
        (rndD ⟨-1, 1⟩) emptyFS).2 = .ok [] := by decide
    rw [h0] at h
    exact Outcome.noConfusion h

/-- C6 (amended): the generator performs no validation of step.  When
the loop condition fails at entry (start above stop) it silently
completes with no directories and an empty manifest, for any step;
and with step 0 and the literal start and stop the loop never
terminates (it is still running after every fuel bound). -/
theorem c6_no_step_validation :
    (∀ (n : ℕ) (lines : List String) (start stop step : Frac) (fs : FS),
        qle start stop = false →
        increment_and_write_xyz (n + 1) [] lines start stop step fs =
          (fsWrite fs [".list.dirs"] "", .ok [])) ∧
    (∀ (n : ℕ) (fs : FS) (acc : List String),
        (sweepLoop [] sampleHeader sampleAtoms stop_increment (rndD ⟨0, 1⟩) n start_increment
          fs acc).2 = .spin) := by
  constructor
  · intro n lines start stop step fs hc
    have hloop : sweepLoop [] (lines.take 2) (lines.drop 2) stop step (n + 1) start fs [] =
        (fs, .ok []) := by simp [sweepLoop, hc]
    simp [increment_and_write_xyz, hloop, strJoin]
  · exact sweepLoop_spin_zero_step

/-- C6 witness: silent completion at start 2, stop 1, step 0, and the
spin of the zero-step loop after 7 fuel units. -/
theorem c6_no_step_validation_witness :
    increment_and_write_xyz 3 [] sampleLines (rndD ⟨2, 1⟩) (rndD ⟨1, 1⟩) (rndD ⟨0, 1⟩)
      emptyFS = (fsWrite emptyFS [".list.dirs"] "", .ok []) ∧
    (sweepLoop [] sampleHeader sampleAtoms stop_increment (rndD ⟨0, 1⟩) 7 start_increment
      emptyFS []).2 = .spin :=
  ⟨c6_no_step_validation.1 2 sampleLines (rndD ⟨2, 1⟩) (rndD ⟨1, 1⟩) (rndD ⟨0, 1⟩) emptyFS
    (by decide), c6_no_step_validation.2 7 emptyFS []⟩

/-- C7: at the literal script parameters, an input whose atom section
contains a line with fewer than 4 tokens or a non-numeric coordinate
token makes the run fail with an exception, and the filesystem is
returned exactly as it was: no directory and no file has been
written. -/
theorem c7_malformed_input :
    ∀ (n : ℕ) (lines : List String) (fs : FS),
      (∃ a ∈ lines.drop 2, malformedLine a = true) →
      ∃ e, increment_and_write_xyz (n + 1) [] lines start_increment stop_increment
        step_increment fs = (fs, .err e) := by
  intro n lines fs hbad
  exact run_malformed n [] lines start_increment stop_increment step_increment fs (by decide)
    hbad

/-- C7 witness: a geometry whose oxygen line has a non-numeric y
token. -/
theorem c7_malformed_input_witness :
    ∃ e, increment_and_write_xyz 100 [] ["2\n", "bad\n", "O 0.0 two 0.0\n"] start_increment
      stop_increment step_increment emptyFS = (emptyFS, .err e) :=
  c7_malformed_input 99 ["2\n", "bad\n", "O 0.0 two 0.0\n"] emptyFS
    ⟨"O 0.0 two 0.0\n", by decide, by decide⟩

/-- C8: the writes of a run do not depend on the initial filesystem:
there is one list of path-content writes (and one outcome) produced
over any initial state, so a second identical run rewrites exactly
the same bytes, pre-existing directories never cause an error, and
after the rerun every written path holds the same content as after
the first run. -/
theorem c8_idempotent_rerun :
    ∀ (fuel : ℕ) (lines : List String) (start stop step : Frac),
      ∃ wr o,
        (∀ fs : FS,
          (increment_and_write_xyz fuel [] lines start stop step fs).1.files = wr ++ fs.files ∧
          (increment_and_write_xyz fuel [] lines start stop step fs).2 = o) ∧
        (∀ p : List String, (∃ c, (p, c) ∈ wr) → ∀ fs : FS,
          fsLookup (increment_and_write_xyz fuel [] lines start stop step
            ((increment_and_write_xyz fuel [] lines start stop step fs).1)).1 p =
          fsLookup (increment_and_write_xyz fuel [] lines start stop step fs).1 p) := by
  intro fuel lines start stop step
  obtain ⟨wr, o, hwo⟩ := run_files_indep fuel lines start stop step
  refine ⟨wr, o, hwo, ?_⟩
  intro p hp fs
  have h1 := (hwo fs).1
  have h2 := (hwo ((increment_and_write_xyz fuel [] lines start stop step fs).1)).1
  simp only [fsLookup]
  rw [h2, h1]
  rw [lookupFiles_append_of_mem wr p hp, lookupFiles_append_of_mem wr p hp]

/-- C8 witness: the write list of the literal run exists. -/
theorem c8_idempotent_rerun_witness :
    ∃ wr o,
      (∀ fs : FS,
        (increment_and_write_xyz 100 [] sampleLines start_increment stop_increment
          step_increment fs).1.files = wr ++ fs.files ∧
        (increment_and_write_xyz 100 [] sampleLines start_increment stop_increment
          step_increment fs).2 = o) ∧
      (∀ p : List String, (∃ c, (p, c) ∈ wr) → ∀ fs : FS,
        fsLookup (increment_and_write_xyz 100 [] sampleLines start_increment stop_increment
          step_increment ((increment_and_write_xyz 100 [] sampleLines start_increment
            stop_increment step_increment fs).1)).1 p =
        fsLookup (increment_and_write_xyz 100 [] sampleLines start_increment stop_increment
          step_increment fs).1 p) :=
  c8_idempotent_rerun 100 sampleLines start_increment stop_increment step_increment

/-- C9: whenever a run ends with an exception, the manifest
.list.dirs is exactly as it was before the run (it is only written
after the loop completes), while every directory present before is
still present. -/
theorem c9_error_skips_manifest :
    ∀ (fuel : ℕ) (unw : List (List String)) (lines : List String) (start stop step : Frac)
      (fs fs1 : FS) (e : PyErr),
      increment_and_write_xyz fuel unw lines start stop step fs = (fs1, .err e) →
      fsLookup fs1 [".list.dirs"] = fsLookup fs [".list.dirs"] ∧
        ∀ q ∈ fs.dirs, q ∈ fs1.dirs :=
  fun fuel unw lines start stop step fs fs1 e h =>
    run_err_state fuel unw lines start stop step fs fs1 e h

/-- C9 witness: with directory 1.7A unwritable the literal run fails
mid-sweep and no manifest is written. -/
theorem c9_error_skips_manifest_witness :
    (increment_and_write_xyz 100 [["1.7A"]] sampleLines start_increment stop_increment
      step_increment emptyFS).2 = .err .osError ∧
    fsLookup (increment_and_write_xyz 100 [["1.7A"]] sampleLines start_increment stop_increment
      step_increment emptyFS).1 [".list.dirs"] = fsLookup emptyFS [".list.dirs"] := by
  have h2 : (increment_and_write_xyz 100 [["1.7A"]] sampleLines start_increment stop_increment
      step_increment emptyFS).2 = .err .osError := by decide
  exact ⟨h2, (c9_error_skips_manifest 100 [["1.7A"]] sampleLines start_increment stop_increment
    step_increment emptyFS _ .osError (Prod.ext rfl h2)).1⟩

/-- C10: with start above stop (and positive step) the generator
creates no directory and no geometry file: its only effect is to
write the manifest as an empty file, truncating any earlier one. -/
theorem c10_empty_sweep_truncates_manifest :
    ∀ (n : ℕ) (lines : List String) (start stop step : Frac) (fs : FS),
      qlt stop start = true → qlt ⟨0, 1⟩ step = true →
      increment_and_write_xyz (n + 1) [] lines start stop step fs =
        (fsWrite fs [".list.dirs"] "", .ok []) ∧
      fsLookup (fsWrite fs [".list.dirs"] "") [".list.dirs"] = some "" ∧
      (fsWrite fs [".list.dirs"] "").dirs = fs.dirs := by
  intro n lines start stop step fs hlt hstep
  have hc : qle start stop = false := by
    simp only [qlt, decide_eq_true_eq] at hlt
    simp only [qle, decide_eq_false_iff_not, not_le]
    exact hlt
  have hloop : sweepLoop [] (lines.take 2) (lines.drop 2) stop step (n + 1) start fs [] =
      (fs, .ok []) := by simp [sweepLoop, hc]
  refine ⟨?_, fsLookup_write_self .., rfl⟩
  simp [increment_and_write_xyz, hloop, strJoin]

/-- C10 witness: an empty sweep truncates a pre-existing manifest. -/
theorem c10_empty_sweep_truncates_manifest_witness :
    increment_and_write_xyz 1 [] sampleLines (rndD ⟨2, 1⟩) (rndD ⟨1, 1⟩) step_increment
      (FS.mk [] [([".list.dirs"], "old")]) =
      (fsWrite (FS.mk [] [([".list.dirs"], "old")]) [".list.dirs"] "", .ok []) ∧
    fsLookup (fsWrite (FS.mk [] [([".list.dirs"], "old")]) [".list.dirs"] "") [".list.dirs"] =
      some "" := by
  have h := c10_empty_sweep_truncates_manifest 0 sampleLines (rndD ⟨2, 1⟩) (rndD ⟨1, 1⟩)
    step_increment (FS.mk [] [([".list.dirs"], "old")]) (by decide) (by decide)
  exact ⟨h.1, h.2.1⟩

end EEQBC
